import Mathlib

/-!
# Verification of the ring cache (`src/ringcache.go`)

A shallow embedding of the `ringcache` Go package. The cache state is the
`RingCache` structure of the source: a fixed capacity `maxSize`, a cursor
`next`, a slot ring `keys` (a Go `[]interface{}` whose nil entries are
modelled as `none`), and a value mapping `items` (a Go
`map[interface{}]interface{}`, modelled as an association list whose stored
values are wrapped in `Option` because a Go map lookup of a missing key
yields nil). The eviction callback `onEvict` is modelled by the flag
`hasEvict` (whether `c.onEvict != nil`) together with each operation
returning the list of callback invocations, in order, as (key, value)
argument pairs; a nil value argument is `none`.
-/

namespace RingCacheProof

variable {K V W : Type}

/-- The `RingCache` struct of the source. -/
structure RingCache (K V : Type) where
  maxSize : Nat
  next : Nat
  keys : List (Option K)
  items : List (K × Option V)
  hasEvict : Bool
  deriving DecidableEq

/-- Go map lookup `v, ok := m[k]`: `some v` when present, `none` when absent.
Association lists built by `mapPut`/`mapDel` keep keys unique, matching a Go
map. -/
def mapGet [DecidableEq K] : List (K × W) → K → Option W
  | [], _ => none
  | (k2, v) :: rest, k => if k2 = k then some v else mapGet rest k

/-- Go map assignment `m[k] = v`: update in place if present, else append. -/
def mapPut [DecidableEq K] : List (K × W) → K → W → List (K × W)
  | [], k, v => [(k, v)]
  | (k2, v2) :: rest, k, v =>
      if k2 = k then (k, v) :: rest else (k2, v2) :: mapPut rest k v

/-- Go `delete(m, k)`: remove the entry for `k` (the first, and with unique
keys the only, occurrence). -/
def mapDel [DecidableEq K] : List (K × W) → K → List (K × W)
  | [], _ => []
  | (k2, v2) :: rest, k => if k2 = k then rest else (k2, v2) :: mapDel rest k

/-- `NewWithEvict` from the source: rejects a non-positive size, otherwise
builds the empty cache. `hasEvict` records whether the callback argument was
non-nil. -/
def NewWithEvict (K V : Type) (maxSize : Int) (hasEvict : Bool) :
    Except String (RingCache K V) :=
  if maxSize ≤ 0 then Except.error "cache size should be greater than zero"
  else Except.ok
    { maxSize := maxSize.toNat
      next := 0
      keys := List.replicate maxSize.toNat none
      items := []
      hasEvict := hasEvict }

/-- `New` from the source: `NewWithEvict` with a nil callback. -/
def New (K V : Type) (maxSize : Int) : Except String (RingCache K V) :=
  NewWithEvict K V maxSize false

/-- The cache built by a successful `NewWithEvict n _` call, `0 < n`. -/
def mkCache (K V : Type) (n : Nat) (hasEvict : Bool) : RingCache K V :=
  { maxSize := n
    next := 0
    keys := List.replicate n none
    items := []
    hasEvict := hasEvict }

/-- `Add` from the source. The key and value are Go `interface{}` values, so
either may be nil (`none`). Returns the new state, the `evicted` result, and
the callback invocations performed during the call. Note that in the source
`evicted = true` is assigned only inside the `c.onEvict != nil` branch, while
`delete(c.items, k)` runs whenever the cursor slot is occupied. -/
def RingCache.Add [DecidableEq K] (c : RingCache K V) (key : Option K)
    (value : Option V) : RingCache K V × Bool × List (K × Option V) :=
  match key, value with
  | some k, some v =>
    match c.keys.getD c.next none with
    | some kold =>
        let calls :=
          if c.hasEvict then [(kold, Option.join (mapGet c.items kold))] else []
        let evicted := c.hasEvict
        let items1 := mapDel c.items kold
        ({ c with
            items := mapPut items1 k (some v)
            keys := c.keys.set c.next (some k)
            next := (c.next + 1) % c.maxSize }, evicted, calls)
    | none =>
        ({ c with
            items := mapPut c.items k (some v)
            keys := c.keys.set c.next (some k)
            next := (c.next + 1) % c.maxSize }, false, [])
  | _, _ => (c, false, [])

/-- `Get` from the source, for a non-nil key (a nil key is never stored, so
the Go call with a nil key takes the not-found path, as `Get` does for any
absent key). The inner `none` branch is the defensive nil-value check. -/
def RingCache.Get [DecidableEq K] (c : RingCache K V) (key : K) :
    Option V × Bool :=
  match mapGet c.items key with
  | some value =>
      match value with
      | none => (none, false)
      | some v => (some v, true)
  | none => (none, false)

/-- `Contains` from the source. -/
def RingCache.Contains [DecidableEq K] (c : RingCache K V) (key : K) : Bool :=
  (mapGet c.items key).isSome

/-- The slot scan loop of `Remove`: clear the first slot equal to the key and
report whether one was found (the `break` makes the loop stop there; the
callback fires only when a slot was found). -/
def scanClear [DecidableEq K] : List (Option K) → K → List (Option K) × Bool
  | [], _ => ([], false)
  | sk :: rest, key =>
      if sk = some key then (none :: rest, true)
      else
        let r := scanClear rest key
        (sk :: r.1, r.2)

/-- `Remove` from the source: on a hit, delete from the mapping, clear the
first slot holding the key, fire the callback (if configured) with the prior
value, return true; on a miss return false with no mutation. -/
def RingCache.Remove [DecidableEq K] (c : RingCache K V) (key : K) :
    RingCache K V × Bool × List (K × Option V) :=
  match mapGet c.items key with
  | some val =>
      let r := scanClear c.keys key
      let calls := if r.2 ∧ c.hasEvict then [(key, val)] else []
      ({ c with items := mapDel c.items key, keys := r.1 }, true, calls)
  | none => (c, false, [])

/-- `Purge` from the source: with a callback configured, invoke it once per
non-empty slot in ring order with the slot key and the mapping's current
value for it (`c.items[k]`, nil when absent); then reset mapping, ring and
cursor. -/
def RingCache.Purge [DecidableEq K] (c : RingCache K V) :
    RingCache K V × List (K × Option V) :=
  let calls :=
    if c.hasEvict then
      c.keys.filterMap (fun sk => sk.map (fun k => (k, Option.join (mapGet c.items k))))
    else []
  ({ c with
      items := []
      keys := List.replicate c.maxSize none
      next := 0 }, calls)

/-- `Len` from the source: the number of mapping entries. -/
def RingCache.Len (c : RingCache K V) : Nat := c.items.length

/-- `Cap` from the source: the fixed capacity. -/
def RingCache.Cap (c : RingCache K V) : Nat := c.maxSize

/-- Run a sequence of `Add` calls (non-nil keys and values), collecting all
callback invocations in order. -/
def runAdds [DecidableEq K] (c : RingCache K V) :
    List (K × V) → RingCache K V × List (K × Option V)
  | [] => (c, [])
  | (k, v) :: rest =>
      let r := c.Add (some k) (some v)
      let r2 := runAdds r.1 rest
      (r2.1, r.2.2 ++ r2.2)

/-- States reachable from construction by any sequence of operations
(`Get`/`Contains`/`Len`/`Cap` do not mutate). -/
inductive Reachable [DecidableEq K] : RingCache K V → Prop
  | new (n : Int) (b : Bool) (c : RingCache K V) :
      NewWithEvict K V n b = Except.ok c → Reachable c
  | add (c : RingCache K V) (key : Option K) (value : Option V) :
      Reachable c → Reachable (c.Add key value).1
  | remove (c : RingCache K V) (key : K) :
      Reachable c → Reachable (c.Remove key).1
  | purge (c : RingCache K V) :
      Reachable c → Reachable c.Purge.1

/-- The state invariant maintained by every operation: positive capacity, a
ring of exactly `maxSize` slots, an in-range cursor, unique mapping keys, and
every mapping entry has a non-nil value and its key in some slot. -/
def Inv (c : RingCache K V) : Prop :=
  0 < c.maxSize ∧
  c.keys.length = c.maxSize ∧
  c.next < c.maxSize ∧
  (c.items.map Prod.fst).Nodup ∧
  ∀ p ∈ c.items, p.2 ≠ none ∧ some p.1 ∈ c.keys

variable [DecidableEq K]

/-- The callback invocations of `Purge`: with a callback configured, one call
per non-empty slot in ring order, carrying the mapping's current value for the
slot key (nil when the key is no longer mapped). -/
theorem purge_calls_eq (c : RingCache K V) :
    c.Purge.2 =
      if c.hasEvict then
        (c.keys.filterMap id).map (fun k => (k, Option.join (mapGet c.items k)))
      else [] := by
  show (if c.hasEvict then _ else []) = _
  cases c.hasEvict <;> simp [List.map_filterMap]

/-- C1: the claim says `Add` returns true whenever the cursor slot is
occupied, with or without a callback. In the source, `evicted = true` is only
assigned inside the `c.onEvict != nil` branch, contradicting the function's
own doc comment ("Returns true if an eviction occurred"): on a capacity-1
cache with no callback, after Add(1,10), the cursor slot holds key 1, yet
Add(2,20) returns false even though the entry for 1 is deleted. -/
theorem C1_add_eviction_without_callback_returns_false :
    (NewWithEvict Nat Nat 1 false = Except.ok (mkCache Nat Nat 1 false)) ∧
    ((runAdds (mkCache Nat Nat 1 false) [(1, 10)]).1.keys.getD
        (runAdds (mkCache Nat Nat 1 false) [(1, 10)]).1.next none = some 1) ∧
    (mapGet (runAdds (mkCache Nat Nat 1 false) [(1, 10)]).1.items 1 = some (some 10)) ∧
    (((runAdds (mkCache Nat Nat 1 false) [(1, 10)]).1.Add (some 2) (some 20)).2.1 = false) ∧
    (mapGet ((runAdds (mkCache Nat Nat 1 false) [(1, 10)]).1.Add
        (some 2) (some 20)).1.items 1 = none) :=
  ⟨rfl, by decide⟩

/-- C2 counterexample: adding the same key twice (into two empty slots) puts
it in two ring slots while the mapping holds one entry, so "exactly one slot"
and "count of non-empty slots equals the number of mapping entries" both
fail on this reachable state. -/
theorem C2_counterexample :
    (NewWithEvict Nat Nat 2 true = Except.ok (mkCache Nat Nat 2 true)) ∧
    ((runAdds (mkCache Nat Nat 2 true) [(1, 10), (1, 10)]).1.keys = [some 1, some 1]) ∧
    ((runAdds (mkCache Nat Nat 2 true) [(1, 10), (1, 10)]).1.items.length = 1) ∧
    (((runAdds (mkCache Nat Nat 2 true) [(1, 10), (1, 10)]).1.keys.filterMap id).length = 2) :=
  ⟨rfl, by decide⟩

/-- C3 counterexample: a reachable state with a stale slot (key 1 occupies a
slot but is no longer in the mapping). `Purge` does not skip it: the callback
is invoked with (1, nil), while the claim says it is not invoked for that
slot. -/
theorem C3_counterexample :
    (NewWithEvict Nat Nat 2 true = Except.ok (mkCache Nat Nat 2 true)) ∧
    ((runAdds (mkCache Nat Nat 2 true) [(1, 10), (1, 10), (2, 20)]).1.hasEvict = true) ∧
    (some 1 ∈ (runAdds (mkCache Nat Nat 2 true) [(1, 10), (1, 10), (2, 20)]).1.keys) ∧
    (mapGet (runAdds (mkCache Nat Nat 2 true) [(1, 10), (1, 10), (2, 20)]).1.items 1 = none) ∧
    ((1, none) ∈ (runAdds (mkCache Nat Nat 2 true) [(1, 10), (1, 10), (2, 20)]).1.Purge.2) :=
  ⟨rfl, by decide⟩

/-- C3 amended: during `Purge` with a callback configured, no slot is
skipped: the callback is invoked exactly once per non-empty slot, in ring
order, with the slot's key and the value the mapping currently assigns that
key — the nil sentinel when the key is no longer in the mapping. -/
theorem C3_amended_purge_calls (c : RingCache K V) (h : c.hasEvict = true) :
    c.Purge.2 =
      (c.keys.filterMap id).map (fun k => (k, Option.join (mapGet c.items k))) := by
  rw [purge_calls_eq, h, if_pos rfl]

/-- C3 amended, checked on the stale-slot state: the stale slot for key 1
produces the call (1, nil) after the live slot's call (2, 20). -/
theorem C3_witness :
    (runAdds (mkCache Nat Nat 2 true) [(1, 10), (1, 10), (2, 20)]).1.Purge.2 =
      (((runAdds (mkCache Nat Nat 2 true) [(1, 10), (1, 10), (2, 20)]).1.keys.filterMap id).map
        (fun k => (k, Option.join (mapGet (runAdds (mkCache Nat Nat 2 true)
          [(1, 10), (1, 10), (2, 20)]).1.items k)))) :=
  C3_amended_purge_calls _ (by decide)

/-- C7 counterexample: on the reachable duplicate-slot state (key 1 in both
slots, one mapping entry), `Purge` fires the callback twice for the single
resident key 1, not "exactly once per key that was resident". -/
theorem C7_counterexample :
    (NewWithEvict Nat Nat 2 true = Except.ok (mkCache Nat Nat 2 true)) ∧
    ((runAdds (mkCache Nat Nat 2 true) [(1, 10), (1, 10)]).1.Len = 1) ∧
    (mapGet (runAdds (mkCache Nat Nat 2 true) [(1, 10), (1, 10)]).1.items 1 = some (some 10)) ∧
    ((runAdds (mkCache Nat Nat 2 true) [(1, 10), (1, 10)]).1.Purge.2 =
      [(1, some 10), (1, some 10)]) :=
  ⟨rfl, by decide⟩

/-- C7 amended: after `Purge()`, `Len() = 0`, `Contains` is false for every
key, `Cap` is unchanged and the cursor is reset to 0; with a callback
configured the callback fires once per non-empty ring slot (so a key
occupying several slots gets several invocations, and a stale slot fires with
the nil value), with the slot's key and the mapping's current value for it. -/
theorem C7_amended_purge_state (c : RingCache K V) :
    c.Purge.1.Len = 0 ∧ (∀ k : K, c.Purge.1.Contains k = false) ∧
    c.Purge.1.Cap = c.Cap ∧ c.Purge.1.next = 0 ∧
    c.Purge.2 =
      (if c.hasEvict then
        (c.keys.filterMap id).map (fun k => (k, Option.join (mapGet c.items k)))
      else []) :=
  ⟨rfl, fun _ => rfl, rfl, rfl, purge_calls_eq c⟩

/-- C9: `Add` with a nil key or nil value returns false and changes nothing:
the state is returned untouched and no callback is invoked. -/
theorem C9_add_nil_noop (c : RingCache K V) (key : Option K) (value : Option V)
    (h : key = none ∨ value = none) : c.Add key value = (c, false, []) := by
  cases key with
  | none => cases value <;> rfl
  | some k =>
      cases value with
      | none => rfl
      | some v => rcases h with h | h <;> exact Option.noConfusion h

/-- C9 checked concretely: a nil key on a capacity-2 cache. -/
theorem C9_witness :
    (mkCache Nat Nat 2 true).Add none (some 5) = (mkCache Nat Nat 2 true, false, []) :=
  C9_add_nil_noop _ none (some 5) (Or.inl rfl)

/-- C8: construction with a non-positive capacity fails with the error and no
cache; with a positive capacity it yields the empty cache: zero length,
cursor 0, a ring of that many empty slots, an empty mapping, and `Cap` equal
to the requested capacity. -/
theorem C8_construction (K V : Type) (n : Int) (b : Bool) :
    (n ≤ 0 →
      NewWithEvict K V n b = Except.error "cache size should be greater than zero") ∧
    (0 < n → ∃ c : RingCache K V, NewWithEvict K V n b = Except.ok c ∧
      c.Len = 0 ∧ c.next = 0 ∧ (c.keys.length : Int) = n ∧
      (∀ sk ∈ c.keys, sk = none) ∧ c.items = [] ∧ (c.Cap : Int) = n ∧
      c.hasEvict = b) := by
  constructor
  · intro h
    unfold NewWithEvict
    rw [if_pos h]
  · intro h
    refine ⟨mkCache K V n.toNat b, ?_, rfl, rfl, ?_, ?_, rfl, ?_, rfl⟩
    · unfold NewWithEvict
      rw [if_neg (not_le.mpr h)]
      rfl
    · show ((List.replicate n.toNat (none : Option K)).length : Int) = n
      rw [List.length_replicate, Int.toNat_of_nonneg h.le]
    · intro sk hsk
      exact List.eq_of_mem_replicate hsk
    · show ((n.toNat : Nat) : Int) = n
      exact Int.toNat_of_nonneg h.le

/-- C8 checked concretely at capacities 0 and 1. -/
theorem C8_witness :
    (NewWithEvict Nat Nat 0 true = Except.error "cache size should be greater than zero") ∧
    (∃ c : RingCache Nat Nat, NewWithEvict Nat Nat 1 true = Except.ok c ∧
      c.Len = 0 ∧ c.next = 0 ∧ (c.keys.length : Int) = 1 ∧
      (∀ sk ∈ c.keys, sk = none) ∧ c.items = [] ∧ (c.Cap : Int) = 1 ∧
      c.hasEvict = true) :=
  ⟨(C8_construction Nat Nat 0 true).1 (by decide),
   (C8_construction Nat Nat 1 true).2 (by decide)⟩

/-! ## Association-list map lemmas -/

theorem mapGet_cons (k2 : K) (v2 : W) (rest : List (K × W)) (k : K) :
    mapGet ((k2, v2) :: rest) k = if k2 = k then some v2 else mapGet rest k := rfl

theorem mapPut_cons (k2 : K) (v2 : W) (rest : List (K × W)) (k : K) (v : W) :
    mapPut ((k2, v2) :: rest) k v =
      if k2 = k then (k, v) :: rest else (k2, v2) :: mapPut rest k v := rfl

theorem mapDel_cons (k2 : K) (v2 : W) (rest : List (K × W)) (k : K) :
    mapDel ((k2, v2) :: rest) k =
      if k2 = k then rest else (k2, v2) :: mapDel rest k := rfl

theorem mapGet_eq_none_iff (m : List (K × W)) (k : K) :
    mapGet m k = none ↔ k ∉ m.map Prod.fst := by
  induction m with
  | nil => simp [mapGet]
  | cons q rest ih =>
      obtain ⟨k2, v2⟩ := q
      rw [mapGet_cons, List.map_cons, List.mem_cons, not_or]
      by_cases hk : k2 = k
      · subst hk
        simp
      · rw [if_neg hk, ih]
        exact ⟨fun hni => ⟨fun he => hk he.symm, hni⟩, fun hni => hni.2⟩

theorem mapGet_mem {m : List (K × W)} {k : K} {v : W}
    (h : mapGet m k = some v) : (k, v) ∈ m := by
  induction m with
  | nil => simp [mapGet] at h
  | cons q rest ih =>
      obtain ⟨k2, v2⟩ := q
      by_cases hk : k2 = k
      · subst hk
        rw [mapGet_cons, if_pos rfl] at h
        injection h with h
        subst h
        exact List.mem_cons_self _ _
      · rw [mapGet_cons, if_neg hk] at h
        exact List.mem_cons_of_mem _ (ih h)

theorem mapGet_ne_none_of_mem {m : List (K × W)} {k : K} {v : W}
    (h : (k, v) ∈ m) : mapGet m k ≠ none := fun hn =>
  (mapGet_eq_none_iff m k).mp hn (List.mem_map_of_mem Prod.fst h)

theorem mem_mapPut_elim {m : List (K × W)} {k : K} {v : W} {p : K × W}
    (h : p ∈ mapPut m k v) : p = (k, v) ∨ p ∈ m := by
  induction m with
  | nil =>
      simp only [mapPut, List.mem_singleton] at h
      exact Or.inl h
  | cons q rest ih =>
      obtain ⟨k2, v2⟩ := q
      by_cases hk : k2 = k
      · rw [mapPut_cons, if_pos hk] at h
        rcases List.mem_cons.mp h with h | h
        · exact Or.inl h
        · exact Or.inr (List.mem_cons_of_mem _ h)
      · rw [mapPut_cons, if_neg hk] at h
        rcases List.mem_cons.mp h with h | h
        · exact Or.inr (h ▸ List.mem_cons_self _ _)
        · rcases ih h with h2 | h2
          · exact Or.inl h2
          · exact Or.inr (List.mem_cons_of_mem _ h2)

theorem mapPut_of_get_none {m : List (K × W)} {k : K} (v : W)
    (h : mapGet m k = none) : mapPut m k v = m ++ [(k, v)] := by
  induction m with
  | nil => rfl
  | cons q rest ih =>
      obtain ⟨k2, v2⟩ := q
      by_cases hk : k2 = k
      · subst hk
        rw [mapGet_cons, if_pos rfl] at h
        exact Option.noConfusion h
      · rw [mapGet_cons, if_neg hk] at h
        rw [mapPut_cons, if_neg hk, ih h, List.cons_append]

theorem mapPut_map_fst_of_some {m : List (K × W)} {k : K} (v : W)
    (h : mapGet m k ≠ none) : (mapPut m k v).map Prod.fst = m.map Prod.fst := by
  induction m with
  | nil => exact absurd rfl h
  | cons q rest ih =>
      obtain ⟨k2, v2⟩ := q
      by_cases hk : k2 = k
      · subst hk
        rw [mapPut_cons, if_pos rfl, List.map_cons, List.map_cons]
      · rw [mapGet_cons, if_neg hk] at h
        rw [mapPut_cons, if_neg hk, List.map_cons, List.map_cons, ih h]

theorem mapPut_nodup {m : List (K × W)} {k : K} {v : W}
    (h : (m.map Prod.fst).Nodup) : ((mapPut m k v).map Prod.fst).Nodup := by
  by_cases hg : mapGet m k = none
  · rw [mapPut_of_get_none v hg, List.map_append]
    have hk : k ∉ m.map Prod.fst := (mapGet_eq_none_iff m k).mp hg
    simp [List.nodup_append, h, hk]
  · rw [mapPut_map_fst_of_some v hg]
    exact h

theorem mapGet_mapPut_self (m : List (K × W)) (k : K) (v : W) :
    mapGet (mapPut m k v) k = some v := by
  induction m with
  | nil => simp [mapPut, mapGet]
  | cons q rest ih =>
      obtain ⟨k2, v2⟩ := q
      by_cases hk : k2 = k
      · rw [mapPut_cons, if_pos hk, mapGet_cons, if_pos rfl]
      · rw [mapPut_cons, if_neg hk, mapGet_cons, if_neg hk, ih]

theorem mapGet_mapPut_ne (m : List (K × W)) {k k2 : K} (v : W) (h : k2 ≠ k) :
    mapGet (mapPut m k v) k2 = mapGet m k2 := by
  have hkk : ¬k = k2 := fun he => h he.symm
  induction m with
  | nil =>
      show mapGet [(k, v)] k2 = none
      rw [mapGet_cons, if_neg hkk]
      rfl
  | cons q rest ih =>
      obtain ⟨k3, v3⟩ := q
      by_cases hk : k3 = k
      · rw [mapPut_cons, if_pos hk, mapGet_cons, mapGet_cons, if_neg hkk,
          if_neg (fun he : k3 = k2 => hkk (hk ▸ he))]
      · rw [mapPut_cons, if_neg hk, mapGet_cons, mapGet_cons, ih]

theorem mapDel_sublist (m : List (K × W)) (k : K) :
    List.Sublist (mapDel m k) m := by
  induction m with
  | nil => exact List.Sublist.refl _
  | cons q rest ih =>
      obtain ⟨k2, v2⟩ := q
      by_cases hk : k2 = k
      · rw [mapDel_cons, if_pos hk]
        exact List.sublist_cons_self _ _
      · rw [mapDel_cons, if_neg hk]
        exact List.Sublist.cons₂ (k2, v2) ih

theorem mem_mapDel {m : List (K × W)} {k : K} {p : K × W}
    (h : p ∈ mapDel m k) : p ∈ m := (mapDel_sublist m k).subset h

theorem mapDel_nodup {m : List (K × W)} {k : K}
    (h : (m.map Prod.fst).Nodup) : ((mapDel m k).map Prod.fst).Nodup :=
  List.Nodup.sublist ((mapDel_sublist m k).map Prod.fst) h

theorem mapGet_mapDel_self {m : List (K × W)} {k : K}
    (h : (m.map Prod.fst).Nodup) : mapGet (mapDel m k) k = none := by
  induction m with
  | nil => rfl
  | cons q rest ih =>
      obtain ⟨k2, v2⟩ := q
      simp only [List.map_cons, List.nodup_cons] at h
      by_cases hk : k2 = k
      · rw [mapDel_cons, if_pos hk]
        exact (mapGet_eq_none_iff rest k).mpr (hk ▸ h.1)
      · rw [mapDel_cons, if_neg hk, mapGet_cons, if_neg hk]
        exact ih h.2

theorem mapGet_mapDel_ne (m : List (K × W)) {k k2 : K} (h : k2 ≠ k) :
    mapGet (mapDel m k) k2 = mapGet m k2 := by
  induction m with
  | nil => rfl
  | cons q rest ih =>
      obtain ⟨k3, v3⟩ := q
      by_cases hk : k3 = k
      · rw [mapDel_cons, if_pos hk, mapGet_cons,
          if_neg (fun he : k3 = k2 => h (hk.symm.trans he).symm)]
      · rw [mapDel_cons, if_neg hk, mapGet_cons, mapGet_cons, ih]

/-! ## Slot-list lemmas -/

theorem mem_set_of_get_ne {α : Type} {l : List α} {a : α} {n : Nat}
    (b : α) (ha : a ∈ l)
    (hne : ∀ hn : n < l.length, l[n] ≠ a) : a ∈ l.set n b := by
  obtain ⟨j, hj, hja⟩ := List.mem_iff_getElem.mp ha
  rw [List.mem_iff_getElem]
  have hjn : j ≠ n := by
    intro he
    subst he
    exact hne hj hja
  refine ⟨j, by simpa using hj, ?_⟩
  rw [List.getElem_set_ne (Ne.symm hjn)]
  exact hja

theorem mem_set_self {α : Type} {l : List α} {n : Nat} (hn : n < l.length)
    (b : α) : b ∈ l.set n b := by
  rw [List.mem_iff_getElem]
  exact ⟨n, by simpa using hn, List.getElem_set_self (by simpa using hn)⟩

theorem scanClear_cons (sk : Option K) (rest : List (Option K)) (key : K) :
    scanClear (sk :: rest) key =
      if sk = some key then (none :: rest, true)
      else (sk :: (scanClear rest key).1, (scanClear rest key).2) := rfl

theorem scanClear_of_not_mem {l : List (Option K)} {key : K}
    (h : some key ∉ l) : scanClear l key = (l, false) := by
  induction l with
  | nil => rfl
  | cons sk rest ih =>
      rw [List.mem_cons, not_or] at h
      rw [scanClear_cons, if_neg (fun he : sk = some key => h.1 he.symm), ih h.2]

theorem scanClear_of_mem {l : List (Option K)} {key : K} (h : some key ∈ l) :
    ∃ i, ∃ hi : i < l.length, l[i] = some key ∧
      (∀ j (hj : j < l.length), j < i → l[j] ≠ some key) ∧
      scanClear l key = (l.set i none, true) := by
  induction l with
  | nil => simp at h
  | cons sk rest ih =>
      by_cases hsk : sk = some key
      · refine ⟨0, by simp, by simpa using hsk, ?_, ?_⟩
        · intro j hj hj0
          omega
        · rw [scanClear_cons, if_pos hsk]
          rfl
      · have h2 : some key ∈ rest := by
          rcases List.mem_cons.mp h with h | h
          · exact absurd h.symm hsk
          · exact h
        obtain ⟨i, hi, hik, hfirst, heq⟩ := ih h2
        refine ⟨i + 1, by simpa using hi, by simpa using hik, ?_, ?_⟩
        · intro j hj hji
          cases j with
          | zero => simpa using hsk
          | succ j2 =>
              have hj2 : j2 < i := by omega
              simpa using hfirst j2 (by simpa using hj) hj2
        · rw [scanClear_cons, if_neg hsk, heq]
          rfl

theorem scanClear_length (l : List (Option K)) (key : K) :
    (scanClear l key).1.length = l.length := by
  induction l with
  | nil => rfl
  | cons sk rest ih =>
      by_cases hsk : sk = some key <;> simp [scanClear_cons, hsk, ih]

/-! ## Operation step equations -/

theorem Add_occupied {c : RingCache K V} {k kold : K} {v : V}
    (hslot : c.keys.getD c.next none = some kold) :
    c.Add (some k) (some v) =
      ({ c with
          items := mapPut (mapDel c.items kold) k (some v)
          keys := c.keys.set c.next (some k)
          next := (c.next + 1) % c.maxSize },
        c.hasEvict,
        if c.hasEvict then [(kold, Option.join (mapGet c.items kold))] else []) := by
  unfold RingCache.Add
  rw [hslot]

theorem Add_empty {c : RingCache K V} {k : K} {v : V}
    (hslot : c.keys.getD c.next none = none) :
    c.Add (some k) (some v) =
      ({ c with
          items := mapPut c.items k (some v)
          keys := c.keys.set c.next (some k)
          next := (c.next + 1) % c.maxSize }, false, []) := by
  unfold RingCache.Add
  rw [hslot]

theorem Remove_miss {c : RingCache K V} {key : K}
    (hget : mapGet c.items key = none) : c.Remove key = (c, false, []) := by
  unfold RingCache.Remove
  rw [hget]

theorem Remove_hit {c : RingCache K V} {key : K} {val : Option V}
    (hget : mapGet c.items key = some val) :
    c.Remove key =
      ({ c with items := mapDel c.items key, keys := (scanClear c.keys key).1 },
        true,
        if (scanClear c.keys key).2 ∧ c.hasEvict then [(key, val)] else []) := by
  unfold RingCache.Remove
  rw [hget]

/-! ## Invariant preservation -/

omit [DecidableEq K] in
theorem inv_new {n : Int} {b : Bool} {c : RingCache K V}
    (h : NewWithEvict K V n b = Except.ok c) : Inv c := by
  unfold NewWithEvict at h
  by_cases hn : n ≤ 0
  · rw [if_pos hn] at h
    exact Except.noConfusion h
  · rw [if_neg hn] at h
    injection h with h
    subst h
    refine ⟨?_, ?_, ?_, List.nodup_nil, ?_⟩
    · show 0 < n.toNat
      omega
    · show (List.replicate n.toNat (none : Option K)).length = n.toNat
      simp
    · show 0 < n.toNat
      omega
    · intro p hp
      simp at hp

theorem inv_add (c : RingCache K V) (key : Option K) (value : Option V)
    (h : Inv c) : Inv (c.Add key value).1 := by
  obtain ⟨hpos, hlen, hnext, hnd, hmem⟩ := h
  cases key with
  | none => cases value <;> exact ⟨hpos, hlen, hnext, hnd, hmem⟩
  | some k =>
    cases value with
    | none => exact ⟨hpos, hlen, hnext, hnd, hmem⟩
    | some v =>
      have hnl : c.next < c.keys.length := by
        rw [hlen]
        exact hnext
      cases hslot : c.keys.getD c.next none with
      | some kold =>
          rw [Add_occupied hslot]
          have hgetslot : c.keys[c.next] = some kold := by
            rw [← List.getD_eq_getElem c.keys none hnl]
            exact hslot
          refine ⟨hpos, by simpa using hlen, Nat.mod_lt _ hpos,
            mapPut_nodup (mapDel_nodup hnd), ?_⟩
          intro p hp
          rcases mem_mapPut_elim hp with hp | hp
          · subst hp
            exact ⟨fun he => Option.noConfusion he, mem_set_self hnl (some k)⟩
          · have hgn : mapGet (mapDel c.items kold) p.1 ≠ none :=
              mapGet_ne_none_of_mem (k := p.1) (v := p.2) hp
            have hne : p.1 ≠ kold := fun he => hgn (by
              rw [he]
              exact mapGet_mapDel_self hnd)
            obtain ⟨hv, hks⟩ := hmem p (mem_mapDel hp)
            refine ⟨hv, mem_set_of_get_ne (some k) hks (fun hn2 => ?_)⟩
            rw [hgetslot]
            intro hco
            injection hco with hco
            exact hne hco.symm
      | none =>
          rw [Add_empty hslot]
          have hgetslot : c.keys[c.next] = none := by
            rw [← List.getD_eq_getElem c.keys none hnl]
            exact hslot
          refine ⟨hpos, by simpa using hlen, Nat.mod_lt _ hpos,
            mapPut_nodup hnd, ?_⟩
          intro p hp
          rcases mem_mapPut_elim hp with hp | hp
          · subst hp
            exact ⟨fun he => Option.noConfusion he, mem_set_self hnl (some k)⟩
          · obtain ⟨hv, hks⟩ := hmem p hp
            refine ⟨hv, mem_set_of_get_ne (some k) hks (fun hn2 => ?_)⟩
            rw [hgetslot]
            exact fun hco => Option.noConfusion hco

theorem inv_remove (c : RingCache K V) (key : K) (h : Inv c) :
    Inv (c.Remove key).1 := by
  obtain ⟨hpos, hlen, hnext, hnd, hmem⟩ := h
  cases hget : mapGet c.items key with
  | none =>
      rw [Remove_miss hget]
      exact ⟨hpos, hlen, hnext, hnd, hmem⟩
  | some val =>
      rw [Remove_hit hget]
      refine ⟨hpos, ?_, hnext, mapDel_nodup hnd, ?_⟩
      · show (scanClear c.keys key).1.length = c.maxSize
        rw [scanClear_length, hlen]
      · intro p hp
        obtain ⟨hv, hks⟩ := hmem p (mem_mapDel hp)
        refine ⟨hv, ?_⟩
        show some p.1 ∈ (scanClear c.keys key).1
        have hgn : mapGet (mapDel c.items key) p.1 ≠ none :=
          mapGet_ne_none_of_mem (k := p.1) (v := p.2) hp
        have hne : p.1 ≠ key := fun he => hgn (by
          rw [he]
          exact mapGet_mapDel_self hnd)
        by_cases hmemk : some key ∈ c.keys
        · obtain ⟨i, hi, hik, hfirst, heq⟩ := scanClear_of_mem hmemk
          rw [heq]
          refine mem_set_of_get_ne none hks (fun hn2 => ?_)
          rw [hik]
          intro hco
          injection hco with hco
          exact hne hco.symm
        · rw [scanClear_of_not_mem hmemk]
          exact hks

theorem inv_purge (c : RingCache K V) (h : Inv c) : Inv c.Purge.1 := by
  obtain ⟨hpos, _, _, _, _⟩ := h
  refine ⟨hpos, ?_, hpos, ?_, ?_⟩
  · show (List.replicate c.maxSize (none : Option K)).length = c.maxSize
    simp
  · show (([] : List (K × Option V)).map Prod.fst).Nodup
    exact List.nodup_nil
  · intro p hp
    exact absurd hp (List.not_mem_nil p)

theorem reachable_inv {c : RingCache K V} (h : Reachable c) : Inv c := by
  induction h with
  | new n b c hok => exact inv_new hok
  | add c key value hr ih => exact inv_add c key value ih
  | remove c key hr ih => exact inv_remove c key ih
  | purge c hr ih => exact inv_purge c ih

theorem reachable_runAdds {c : RingCache K V} (h : Reachable c)
    (l : List (K × V)) : Reachable (runAdds c l).1 := by
  induction l generalizing c with
  | nil => exact h
  | cons q rest ih =>
      obtain ⟨k, v⟩ := q
      exact ih (Reachable.add c (some k) (some v) h)

theorem nodup_subset_length_le {l1 l2 : List K} (hnd : l1.Nodup)
    (hs : l1 ⊆ l2) : l1.length ≤ l2.length := by
  calc l1.length = l1.toFinset.card := (List.toFinset_card_of_nodup hnd).symm
    _ ≤ l2.toFinset.card := Finset.card_le_card (fun x hx => by
        rw [List.mem_toFinset] at hx ⊢
        exact hs hx)
    _ ≤ l2.length := l2.toFinset_card_le

theorem inv_count {c : RingCache K V} (h : Inv c) :
    c.items.length ≤ (c.keys.filterMap id).length := by
  obtain ⟨_, _, _, hnd, hmem⟩ := h
  rw [show c.items.length = (c.items.map Prod.fst).length from
    (List.length_map _ _).symm]
  refine nodup_subset_length_le hnd ?_
  intro x hx
  rw [List.mem_map] at hx
  obtain ⟨p, hp, rfl⟩ := hx
  rw [List.mem_filterMap]
  exact ⟨some p.1, (hmem p hp).2, rfl⟩

theorem inv_len_le_cap {c : RingCache K V} (h : Inv c) : c.Len ≤ c.Cap := by
  have h2 := inv_count h
  have h3 : (c.keys.filterMap id).length ≤ c.keys.length :=
    List.length_filterMap_le _ _
  have h4 := h.2.1
  unfold RingCache.Len RingCache.Cap
  omega

/-! ## Claims about reachable states -/

/-- C2 amended: in every reachable state, every key present in the value
mapping appears in at least one ring slot (after a duplicate re-insertion it
may occupy several, and a non-empty slot may hold a stale key no longer in
the mapping), and the number of mapping entries is at most the number of
non-empty slots. -/
theorem C2_amended_ring_map_subset (c : RingCache K V) (h : Reachable c) :
    (∀ p ∈ c.items, some p.1 ∈ c.keys) ∧
    c.items.length ≤ (c.keys.filterMap id).length := by
  have hi := reachable_inv h
  exact ⟨fun p hp => (hi.2.2.2.2 p hp).2, inv_count hi⟩

/-- C2 amended, checked on the duplicate-slot state. -/
theorem C2_witness :
    (∀ p ∈ (runAdds (mkCache Nat Nat 2 true) [(1, 10), (1, 10)]).1.items,
      some p.1 ∈ (runAdds (mkCache Nat Nat 2 true) [(1, 10), (1, 10)]).1.keys) ∧
    (runAdds (mkCache Nat Nat 2 true) [(1, 10), (1, 10)]).1.items.length ≤
      ((runAdds (mkCache Nat Nat 2 true) [(1, 10), (1, 10)]).1.keys.filterMap id).length :=
  C2_amended_ring_map_subset _ (reachable_runAdds (Reachable.new 2 true _ rfl) _)

/-- C5: for any sequence of `Add` calls with pairwise-distinct non-nil keys
and non-nil values on a freshly constructed cache, `Len ≤ Cap` holds after
every call, i.e. after running every prefix of the sequence. -/
theorem C5_len_le_cap (n : Int) (b : Bool) (c0 : RingCache K V)
    (h0 : NewWithEvict K V n b = Except.ok c0) (l : List (K × V))
    (_hnd : (l.map Prod.fst).Nodup) (pre : List (K × V)) (_hpre : pre <+: l) :
    (runAdds c0 pre).1.Len ≤ (runAdds c0 pre).1.Cap :=
  inv_len_le_cap (reachable_inv (reachable_runAdds (Reachable.new n b c0 h0) pre))

/-- C5 checked concretely: capacity 2, the prefix [(1,10)] of
[(1,10),(2,20)]. -/
theorem C5_witness :
    (runAdds (mkCache Nat Nat 2 true) [(1, 10)]).1.Len ≤
      (runAdds (mkCache Nat Nat 2 true) [(1, 10)]).1.Cap :=
  C5_len_le_cap 2 true _ rfl [(1, 10), (2, 20)] (by decide) [(1, 10)] ⟨[(2, 20)], rfl⟩

/-- C10: in every reachable state no mapping entry holds the nil sentinel as
its value, so `Get` reports found exactly when `Contains` is true and the
defensive nil-value branch of `Get` never fires. -/
theorem C10_no_nil_values (c : RingCache K V) (h : Reachable c) :
    (∀ p ∈ c.items, p.2 ≠ none) ∧ ∀ k : K, (c.Get k).2 = c.Contains k := by
  have hi := reachable_inv h
  refine ⟨fun p hp => (hi.2.2.2.2 p hp).1, fun k => ?_⟩
  unfold RingCache.Get RingCache.Contains
  cases hg : mapGet c.items k with
  | none => rfl
  | some w =>
      cases w with
      | none => exact absurd rfl (hi.2.2.2.2 (k, none) (mapGet_mem hg)).1
      | some v => rfl

/-- C10 checked on a reachable state with two live keys. -/
theorem C10_witness :
    (∀ p ∈ (runAdds (mkCache Nat Nat 2 true) [(1, 10), (2, 20)]).1.items,
      p.2 ≠ none) ∧
    ∀ k : Nat, ((runAdds (mkCache Nat Nat 2 true) [(1, 10), (2, 20)]).1.Get k).2 =
      (runAdds (mkCache Nat Nat 2 true) [(1, 10), (2, 20)]).1.Contains k :=
  C10_no_nil_values _ (reachable_runAdds (Reachable.new 2 true _ rfl) _)

/-- C6: for a cache satisfying the reachable-state invariant and any key:
on a hit, `Remove` returns true, erases the key from the mapping (leaving all
other entries untouched), clears the first ring slot holding the key, leaves
the cursor and capacity unchanged, and invokes the callback exactly once with
the key and its prior value when one is configured; on a miss it returns
false and performs no mutation and no callback invocation. -/
theorem C6_remove_spec (c : RingCache K V) (key : K) (h : Reachable c) :
    (∀ val, mapGet c.items key = some val →
      (c.Remove key).2.1 = true ∧
      mapGet (c.Remove key).1.items key = none ∧
      (∀ k2 : K, k2 ≠ key → mapGet (c.Remove key).1.items k2 = mapGet c.items k2) ∧
      (c.Remove key).1.next = c.next ∧
      (c.Remove key).1.maxSize = c.maxSize ∧
      (c.Remove key).2.2 = (if c.hasEvict then [(key, val)] else []) ∧
      (∃ i, ∃ hi : i < c.keys.length, c.keys[i] = some key ∧
        (∀ j (hj : j < c.keys.length), j < i → c.keys[j] ≠ some key) ∧
        (c.Remove key).1.keys = c.keys.set i none)) ∧
    (mapGet c.items key = none → c.Remove key = (c, false, [])) := by
  have hi := reachable_inv h
  constructor
  · intro val hget
    have hmemk : some key ∈ c.keys := (hi.2.2.2.2 (key, val) (mapGet_mem hget)).2
    obtain ⟨i, hilen, hik, hfirst, heq⟩ := scanClear_of_mem hmemk
    rw [Remove_hit hget, heq]
    refine ⟨rfl, ?_, ?_, rfl, rfl, ?_, i, hilen, hik, hfirst, rfl⟩
    · exact mapGet_mapDel_self hi.2.2.2.1
    · intro k2 hk2
      exact mapGet_mapDel_ne c.items hk2
    · show (if (true : Bool) ∧ c.hasEvict then [(key, val)] else [])
          = if c.hasEvict then [(key, val)] else []
      cases c.hasEvict <;> simp
  · intro hget
    exact Remove_miss hget

/-- C6 checked concretely: removing key 0 (value 100) from a two-entry
capacity-3 cache. -/
theorem C6_witness :
    ((runAdds (mkCache Nat Nat 3 true) [(0, 100), (1, 101)]).1.Remove 0).2.1 = true ∧
    mapGet ((runAdds (mkCache Nat Nat 3 true) [(0, 100), (1, 101)]).1.Remove 0).1.items 0
      = none ∧
    ((runAdds (mkCache Nat Nat 3 true) [(0, 100), (1, 101)]).1.Remove 0).2.2
      = [(0, some 100)] :=
  ⟨((C6_remove_spec ((runAdds (mkCache Nat Nat 3 true) [(0, 100), (1, 101)]).1) 0
      (reachable_runAdds (Reachable.new 3 true _ rfl) [(0, 100), (1, 101)])).1
      (some 100) rfl).1,
   ((C6_remove_spec ((runAdds (mkCache Nat Nat 3 true) [(0, 100), (1, 101)]).1) 0
      (reachable_runAdds (Reachable.new 3 true _ rfl) [(0, 100), (1, 101)])).1
      (some 100) rfl).2.1,
   ((C6_remove_spec ((runAdds (mkCache Nat Nat 3 true) [(0, 100), (1, 101)]).1) 0
      (reachable_runAdds (Reachable.new 3 true _ rfl) [(0, 100), (1, 101)])).1
      (some 100) rfl).2.2.2.2.2.1⟩

/-! ## FIFO fill (C4) -/

theorem Add_empty_fields (n2 nx : Nat) (ks : List (Option K))
    (its : List (K × Option V)) (b : Bool) (k : K) (v : V)
    (hslot : ks.getD nx none = none) :
    (RingCache.mk n2 nx ks its b).Add (some k) (some v) =
      (RingCache.mk n2 ((nx + 1) % n2) (ks.set nx (some k))
        (mapPut its k (some v)) b, false, []) :=
  Add_empty hslot

theorem Add_occupied_fields (n2 nx : Nat) (ks : List (Option K))
    (its : List (K × Option V)) (b : Bool) (k kold : K) (v : V)
    (hslot : ks.getD nx none = some kold) :
    (RingCache.mk n2 nx ks its b).Add (some k) (some v) =
      (RingCache.mk n2 ((nx + 1) % n2) (ks.set nx (some k))
          (mapPut (mapDel its kold) k (some v)) b,
        b, if b then [(kold, Option.join (mapGet its kold))] else []) :=
  Add_occupied hslot

theorem runAdds_append (c : RingCache K V) (l1 l2 : List (K × V)) :
    runAdds c (l1 ++ l2) =
      ((runAdds (runAdds c l1).1 l2).1,
        (runAdds c l1).2 ++ (runAdds (runAdds c l1).1 l2).2) := by
  induction l1 generalizing c with
  | nil => simp [runAdds]
  | cons q rest ih =>
      obtain ⟨k, v⟩ := q
      simp [runAdds, ih, List.append_assoc]

theorem set_append_len {α : Type} (l1 l2 : List α) (a : α) :
    (l1 ++ l2).set l1.length a = l1 ++ l2.set 0 a := by
  induction l1 with
  | nil => rfl
  | cons x xs ih =>
      show x :: ((xs ++ l2).set xs.length a) = x :: (xs ++ l2.set 0 a)
      rw [ih]

theorem set_append_of_len {α : Type} (l1 l2 : List α) (a : α) (j : Nat)
    (hj : j = l1.length) : (l1 ++ l2).set j a = l1 ++ l2.set 0 a := by
  rw [hj, set_append_len]

theorem getD_replicate_zero {α : Type} (k : Nat) (a d : α) (hk : 0 < k) :
    (List.replicate k a).getD 0 d = a := by
  cases k with
  | zero => omega
  | succ k2 => rfl

/-- The state after filling a fresh capacity-`n` cache (callback configured)
with `m ≤ n` pairwise-distinct keys: slots `0..m-1` hold the keys in
insertion order, the rest are empty, the cursor is at `m % n`, and no
callback has fired. -/
theorem runAdds_fill (n : Nat) (kf : Nat → K) (vf : Nat → V)
    (hinj : ∀ i j, i ≤ n → j ≤ n → kf i = kf j → i = j)
    (m : Nat) (hm : m ≤ n) :
    runAdds (mkCache K V n true) ((List.range m).map (fun i => (kf i, vf i))) =
      (RingCache.mk n (m % n)
        ((List.range m).map (fun i => some (kf i)) ++ List.replicate (n - m) none)
        ((List.range m).map (fun i => (kf i, some (vf i)))) true, []) := by
  induction m with
  | zero => simp [runAdds, mkCache]
  | succ m ih =>
      have hmn : m < n := hm
      have hmle : m ≤ n := Nat.le_of_lt hmn
      rw [List.range_succ, List.map_append, runAdds_append, ih hmle]
      have hnext : m % n = m := Nat.mod_eq_of_lt hmn
      have hslot : (((List.range m).map (fun i => some (kf i)) ++
          List.replicate (n - m) none).getD (m % n) none : Option K) = none := by
        rw [hnext, List.getD_append_right _ _ _ _ (by simp)]
        simp only [List.length_map, List.length_range, Nat.sub_self]
        exact getD_replicate_zero _ _ _ (by omega)
      simp only [runAdds]
      rw [Add_empty_fields _ _ _ _ _ _ _ hslot]
      have hget_none :
          mapGet ((List.range m).map (fun i => (kf i, some (vf i)))) (kf m) = none := by
        rw [mapGet_eq_none_iff, List.map_map]
        intro hmem
        rw [List.mem_map] at hmem
        obtain ⟨i, hir, hie⟩ := hmem
        rw [List.mem_range] at hir
        have := hinj i m (by omega) hmle hie
        omega
      have hrep : (List.replicate (n - m) (none : Option K)).set 0 (some (kf m))
          = some (kf m) :: List.replicate (n - (m + 1)) none := by
        rw [show n - m = (n - (m + 1)) + 1 by omega, List.replicate_succ]
        rfl
      have hkeys : (((List.range m).map (fun i => some (kf i)) ++
            List.replicate (n - m) none).set (m % n) (some (kf m)))
          = (List.range (m + 1)).map (fun i => some (kf i)) ++
            List.replicate (n - (m + 1)) none := by
        rw [hnext, set_append_of_len _ _ _ _ (by simp), hrep, List.range_succ,
          List.map_append]
        simp
      have hitems : mapPut ((List.range m).map (fun i => (kf i, some (vf i))))
            (kf m) (some (vf m))
          = (List.range (m + 1)).map (fun i => (kf i, some (vf i))) := by
        rw [mapPut_of_get_none _ hget_none, List.range_succ, List.map_append]
        rfl
      rw [hkeys, hitems, hnext]
      simp [List.range_succ]

omit [DecidableEq K] in
theorem newWithEvict_ok {n : Nat} {b : Bool} {c : RingCache K V}
    (h : NewWithEvict K V (n : Int) b = Except.ok c) :
    c = mkCache K V n b ∧ 0 < n := by
  unfold NewWithEvict at h
  by_cases hn : (n : Int) ≤ 0
  · rw [if_pos hn] at h
    exact Except.noConfusion h
  · rw [if_neg hn] at h
    injection h with h
    refine ⟨?_, by omega⟩
    rw [← h]
    simp [mkCache]

/-- C4: starting from a freshly constructed cache of capacity `n` with a
callback configured, inserting the `n + 1` pairwise-distinct non-nil keys
`kf 0 .. kf n` (values `vf 0 .. vf n`) fires no callback during the first `n`
inserts, fires exactly `(kf 0, vf 0)` during the insert of `kf n`, and
afterwards `Get (kf 0)` reports not-found and `Contains (kf 0)` is false. -/
theorem C4_fifo_eviction (n : Nat) (kf : Nat → K) (vf : Nat → V)
    (hinj : ∀ i j, i ≤ n → j ≤ n → kf i = kf j → i = j)
    (c0 : RingCache K V) (h0 : NewWithEvict K V (n : Int) true = Except.ok c0) :
    (runAdds c0 ((List.range n).map (fun i => (kf i, vf i)))).2 = [] ∧
    ((runAdds c0 ((List.range n).map (fun i => (kf i, vf i)))).1.Add
        (some (kf n)) (some (vf n))).2.2 = [(kf 0, some (vf 0))] ∧
    ((runAdds c0 ((List.range n).map (fun i => (kf i, vf i)))).1.Add
        (some (kf n)) (some (vf n))).1.Get (kf 0) = (none, false) ∧
    ((runAdds c0 ((List.range n).map (fun i => (kf i, vf i)))).1.Add
        (some (kf n)) (some (vf n))).1.Contains (kf 0) = false := by
  obtain ⟨hc, hn⟩ := newWithEvict_ok h0
  subst hc
  obtain ⟨n2, rfl⟩ : ∃ n2, n = n2 + 1 := ⟨n - 1, by omega⟩
  rw [runAdds_fill _ kf vf hinj _ le_rfl, Nat.mod_self, Nat.sub_self,
    show List.replicate 0 (none : Option K) = [] from rfl, List.append_nil]
  have hslot : (((List.range (n2 + 1)).map (fun i => some (kf i))).getD 0 none)
      = some (kf 0) := by
    rw [List.range_succ_eq_map]
    rfl
  rw [Add_occupied_fields _ _ _ _ _ _ _ _ hslot]
  have hitems0 : mapGet ((List.range (n2 + 1)).map (fun i => (kf i, some (vf i))))
      (kf 0) = some (some (vf 0)) := by
    rw [List.range_succ_eq_map, List.map_cons, mapGet_cons, if_pos rfl]
  have hdel : mapDel ((List.range (n2 + 1)).map (fun i => (kf i, some (vf i)))) (kf 0)
      = (List.range n2).map (fun i => (kf (i + 1), some (vf (i + 1)))) := by
    rw [List.range_succ_eq_map, List.map_cons, mapDel_cons, if_pos rfl, List.map_map]
    rfl
  have hne0 : kf 0 ≠ kf (n2 + 1) := fun he => by
    have := hinj 0 (n2 + 1) (by omega) le_rfl he
    omega
  have hfinal : mapGet (mapPut
        ((List.range n2).map (fun i => (kf (i + 1), some (vf (i + 1)))))
        (kf (n2 + 1)) (some (vf (n2 + 1)))) (kf 0) = none := by
    rw [mapGet_mapPut_ne _ _ hne0, mapGet_eq_none_iff, List.map_map]
    intro hmem
    rw [List.mem_map] at hmem
    obtain ⟨i, hir, hie⟩ := hmem
    rw [List.mem_range] at hir
    have := hinj (i + 1) 0 (by omega) (by omega) hie
    omega
  rw [hdel]
  refine ⟨rfl, ?_, ?_, ?_⟩
  · rw [hitems0]
    rfl
  · unfold RingCache.Get
    rw [hfinal]
  · unfold RingCache.Contains
    rw [hfinal]
    rfl

/-- C4 checked concretely: capacity 2, keys 0,1,2 with values 100,101,102. -/
theorem C4_witness :
    (runAdds (mkCache Nat Nat 2 true)
      ((List.range 2).map (fun i => (i, i + 100)))).2 = [] ∧
    ((runAdds (mkCache Nat Nat 2 true)
        ((List.range 2).map (fun i => (i, i + 100)))).1.Add
        (some 2) (some 102)).2.2 = [(0, some 100)] ∧
    ((runAdds (mkCache Nat Nat 2 true)
        ((List.range 2).map (fun i => (i, i + 100)))).1.Add
        (some 2) (some 102)).1.Get 0 = (none, false) ∧
    ((runAdds (mkCache Nat Nat 2 true)
        ((List.range 2).map (fun i => (i, i + 100)))).1.Add
        (some 2) (some 102)).1.Contains 0 = false :=
  C4_fifo_eviction 2 id (fun i => i + 100) (fun _ _ _ _ h => h) _ rfl

end RingCacheProof
